import Mathlib

/-!
Shallow embedding of the contrag-core Rust crate (dhaniverse/contrag), covering the
components the verified claims are about:

* `vector_store/stable_memory_store.rs` : `StableMemoryVectorStore` and its operations
  (`store`, `store_batch`, `search`, `delete`, `delete_namespace`, `count`,
  `list_namespaces`).  The `HashMap<String, Vec<StoredVector>>` is modelled as an
  association list; the map's iteration order is never observed by these operations
  (all access is keyed), so this is faithful.
* `embedders/mod.rs` : `EmbeddingCache` and `CachedEmbedder::embed_with_cache`.
  Here the `HashMap` iteration order *is* observed (eviction removes
  `cache.keys().next()`); iteration order is implementation-defined in Rust and is
  modelled as insertion order.
* `context_builder.rs` : `ContextBuilder::chunk_text` and `find_word_boundary`.
  Strings are modelled as lists of Unicode scalar values (`List Char`); the byte
  indices the Rust code works with are recovered through `Char.utf8Size`.  Rust
  byte-slicing panics (out of bounds, non-boundary cut, start past end) are modelled
  by `Option`/a `panicked` outcome, and the `while` loop is given explicit fuel
  because it does not terminate on all inputs.
* `config.rs` : `validate_config`.
* `error.rs` : the `ContragError` enum.

Embedding vectors are `Vec<f32>` in the source.  The only place a float value is
*computed* (rather than stored and returned verbatim) is the similarity score, so
embeddings and scores are modelled over `ℚ` and `search` is parametrised by the
similarity function it calls; every ranking theorem below is proved for an arbitrary
similarity function, hence in particular for the f32 `cosine_similarity` of
`vector_store/mod.rs` (whose non-NaN outputs are totally ordered exactly like `ℚ`).

Rust's `sort_by` / `sort_by_key` are stable sorts; they are modelled by the stable
insertion sort `isortBy` below, which produces the same output as any stable sort
for a comparator that is a total preorder.
-/

namespace Contrag

/-! ## Stable sorting (model of Rust's stable `slice::sort_by`) -/

/-- Stable insertion of `x` into `l`: `x` goes before the first element `y` with
`le x y`; on ties (`le` both ways) existing elements keep their places. -/
def insertBy {α : Type} (le : α → α → Bool) (x : α) : List α → List α
  | [] => [x]
  | y :: ys => if le x y then x :: y :: ys else y :: insertBy le x ys

/-- Stable insertion sort with comparator `le`. -/
def isortBy {α : Type} (le : α → α → Bool) : List α → List α
  | [] => []
  | x :: xs => insertBy le x (isortBy le xs)

theorem mem_insertBy {α : Type} (le : α → α → Bool) (x z : α) (l : List α) :
    z ∈ insertBy le x l ↔ z = x ∨ z ∈ l := by
  induction l with
  | nil => simp [insertBy]
  | cons y ys ih =>
      by_cases h : le x y
      · simp [insertBy, h]
      · simp [insertBy, h, ih]
        tauto

theorem insertBy_perm {α : Type} (le : α → α → Bool) (x : α) (l : List α) :
    List.Perm (insertBy le x l) (x :: l) := by
  induction l with
  | nil => simp [insertBy]
  | cons y ys ih =>
      by_cases h : le x y
      · simp [insertBy, h]
      · simp only [insertBy, h, Bool.false_eq_true, if_false]
        exact List.Perm.trans (List.Perm.cons y ih) (List.Perm.swap x y ys)

theorem isortBy_perm {α : Type} (le : α → α → Bool) (l : List α) :
    List.Perm (isortBy le l) l := by
  induction l with
  | nil => exact List.Perm.refl _
  | cons x xs ih =>
      exact List.Perm.trans (insertBy_perm le x (isortBy le xs)) (List.Perm.cons x ih)

theorem length_isortBy {α : Type} (le : α → α → Bool) (l : List α) :
    (isortBy le l).length = l.length :=
  (isortBy_perm le l).length_eq

theorem pairwise_insertBy {α : Type} (le : α → α → Bool)
    (htot : ∀ a b, le a b = true ∨ le b a = true)
    (htrans : ∀ a b c, le a b = true → le b c = true → le a c = true)
    (x : α) (l : List α) (h : l.Pairwise (fun a b => le a b = true)) :
    (insertBy le x l).Pairwise (fun a b => le a b = true) := by
  induction l with
  | nil => simp [insertBy]
  | cons y ys ih =>
      rcases List.pairwise_cons.mp h with ⟨hy, hys⟩
      by_cases hxy : le x y
      · simp only [insertBy, hxy, if_true]
        refine List.pairwise_cons.mpr ⟨?_, h⟩
        intro z hz
        rcases List.mem_cons.mp hz with hzy | hz
        · subst hzy
          exact hxy
        · exact htrans x y z hxy (hy z hz)
      · simp only [insertBy, hxy, Bool.false_eq_true, if_false]
        refine List.pairwise_cons.mpr ⟨?_, ih hys⟩
        intro z hz
        rcases (mem_insertBy le x z ys).mp hz with hzx | hzys
        · rcases htot x y with hcase | hcase
          · exact absurd hcase hxy
          · rw [hzx]
            exact hcase
        · exact hy z hzys

theorem pairwise_isortBy {α : Type} (le : α → α → Bool)
    (htot : ∀ a b, le a b = true ∨ le b a = true)
    (htrans : ∀ a b c, le a b = true → le b c = true → le a c = true)
    (l : List α) : (isortBy le l).Pairwise (fun a b => le a b = true) := by
  induction l with
  | nil => simp [isortBy]
  | cons x xs ih => exact pairwise_insertBy le htot htrans x (isortBy le xs) ih

/-- The strict order "descending by score `f`, ties broken by ascending index `g`":
this is the order the specification claims for search results. -/
def Rdesc {α : Type} (f : α → ℚ) (g : α → Nat) (a b : α) : Prop :=
  f b < f a ∨ (f a = f b ∧ g a < g b)

theorem insertBy_pairwise_rdesc {α : Type} (f : α → ℚ) (g : α → Nat) (x : α) (l : List α)
    (h : l.Pairwise (Rdesc f g)) (hx : ∀ z ∈ l, g x < g z) :
    (insertBy (fun a b => decide (f b ≤ f a)) x l).Pairwise (Rdesc f g) := by
  induction l with
  | nil => simp [insertBy]
  | cons y ys ih =>
      rcases List.pairwise_cons.mp h with ⟨hy, hys⟩
      by_cases hxy : f y ≤ f x
      · simp only [insertBy, decide_eq_true_eq, hxy, if_true]
        refine List.pairwise_cons.mpr ⟨?_, h⟩
        intro z hz
        have hzle : f z ≤ f x := by
          rcases List.mem_cons.mp hz with hzy | hzys
          · subst hzy
            exact hxy
          · rcases hy z hzys with hlt | ⟨heq, _⟩
            · exact le_trans (le_of_lt hlt) hxy
            · exact le_trans (le_of_eq heq.symm) hxy
        rcases lt_or_eq_of_le hzle with hlt | heq
        · exact Or.inl hlt
        · refine Or.inr ⟨heq.symm, ?_⟩
          rcases List.mem_cons.mp hz with hzy | hzys
          · rw [hzy]
            exact hx y (List.mem_cons_self y ys)
          · exact hx z (List.mem_cons_of_mem y hzys)
      · simp only [insertBy, decide_eq_true_eq, hxy, if_false]
        have hxlt : f x < f y := lt_of_not_le hxy
        refine List.pairwise_cons.mpr ⟨?_, ih hys (fun z hz => hx z (List.mem_cons_of_mem y hz))⟩
        intro z hz
        rcases (mem_insertBy _ x z ys).mp hz with hzx | hzys
        · subst hzx
          exact Or.inl hxlt
        · exact hy z hzys

theorem isortBy_pairwise_rdesc {α : Type} (f : α → ℚ) (g : α → Nat) (l : List α)
    (h : l.Pairwise (fun a b => g a < g b)) :
    (isortBy (fun a b => decide (f b ≤ f a)) l).Pairwise (Rdesc f g) := by
  induction l with
  | nil => simp [isortBy]
  | cons x xs ih =>
      rcases List.pairwise_cons.mp h with ⟨hx, hxs⟩
      refine insertBy_pairwise_rdesc f g x (isortBy _ xs) (ih hxs) ?_
      intro z hz
      exact hx z ((isortBy_perm _ xs).mem_iff.mp hz)

/-- Insertion sort commutes with mapping away an annotation that the comparator
ignores: sorting annotated elements with the lifted comparator and then dropping
the annotation equals sorting the plain elements.  (Used to recover the tie-break
order of Rust's stable sort, which carries no explicit indices.) -/
theorem map_insertBy {α β : Type} (le : β → β → Bool) (p : α → β) (x : α) (l : List α) :
    (insertBy (fun a b => le (p a) (p b)) x l).map p = insertBy le (p x) (l.map p) := by
  induction l with
  | nil => simp [insertBy]
  | cons y ys ih =>
      by_cases h : le (p x) (p y)
      · simp [insertBy, h]
      · simp [insertBy, h, ih]

theorem map_isortBy {α β : Type} (le : β → β → Bool) (p : α → β) (l : List α) :
    (isortBy (fun a b => le (p a) (p b)) l).map p = isortBy le (l.map p) := by
  induction l with
  | nil => simp [isortBy]
  | cons x xs ih => simp [isortBy, map_insertBy, ih]

/-! ## `error.rs` -/

/-- The `ContragError` enum of `error.rs`.  Note that there is no dedicated
`NamespaceNotFound` variant: the missing-namespace failure of `search` is raised as
`VectorStoreError("Namespace not found: {ns}")`. -/
inductive ContragError : Type
  | ConfigError (msg : String)
  | DataSourceError (msg : String)
  | EmbedderError (msg : String)
  | VectorStoreError (msg : String)
  | EntityNotFound (msg : String)
  | DimensionMismatch (expected actual : Nat)
  | HttpOutcallError (msg : String)
  | SerializationError (msg : String)
  | CanisterCallError (msg : String)
  | InvalidConfig (msg : String)
  | StorageError (msg : String)
  | ContextBuildError (msg : String)
deriving DecidableEq, Repr

/-! ## `types.rs` -/

/-- `VectorMetadata` of `types.rs`.  `timestamp: u64` is modelled as `Nat` (no
arithmetic is ever performed on it — it is stored and returned verbatim). -/
structure VectorMetadata : Type where
  entity_type : String
  entity_id : String
  chunk_index : Nat
  total_chunks : Nat
  timestamp : Nat
  custom : Option String
deriving DecidableEq, Repr

/-- `Vector` of `types.rs`; the `Vec<f32>` embedding is modelled over `ℚ`. -/
structure Vector : Type where
  id : String
  embedding : List ℚ
  text : String
  metadata : VectorMetadata
deriving DecidableEq, Repr

/-- `SearchResult` of `types.rs`; the f32 score is modelled over `ℚ`. -/
structure SearchResult : Type where
  vector_id : String
  text : String
  score : ℚ
  metadata : VectorMetadata
deriving DecidableEq, Repr

/-! ## `vector_store/stable_memory_store.rs` -/

/-- The private `StoredVector` struct of `stable_memory_store.rs`. -/
structure StoredVector : Type where
  id : String
  embedding : List ℚ
  text : String
  entity_type : String
  entity_id : String
  chunk_index : Nat
  total_chunks : Nat
  timestamp : Nat
deriving DecidableEq, Repr

/-- The `StoredVector` built at the top of `StableMemoryVectorStore::store`. -/
def toStored (v : Vector) : StoredVector where
  id := v.id
  embedding := v.embedding
  text := v.text
  entity_type := v.metadata.entity_type
  entity_id := v.metadata.entity_id
  chunk_index := v.metadata.chunk_index
  total_chunks := v.metadata.total_chunks
  timestamp := v.metadata.timestamp

/-- The `SearchResult` built from a `(score, StoredVector)` pair at the end of
`StableMemoryVectorStore::search` (`custom` is set to `None` there). -/
def toSearchResult (p : ℚ × StoredVector) : SearchResult where
  vector_id := p.2.id
  text := p.2.text
  score := p.1
  metadata :=
    { entity_type := p.2.entity_type
      entity_id := p.2.entity_id
      chunk_index := p.2.chunk_index
      total_chunks := p.2.total_chunks
      timestamp := p.2.timestamp
      custom := none }

/-- The namespace map `HashMap<String, Vec<StoredVector>>`, modelled as an
association list.  The store only ever accesses it by key (`entry`, `get`,
`get_mut`, `remove`), never by iteration, so the representation order is
unobservable. -/
abbrev NsMap : Type := List (String × List StoredVector)

/-- `HashMap::get` composed with the namespace key. -/
def lookupNs (m : NsMap) (ns : String) : Option (List StoredVector) :=
  (m.find? (fun p => p.1 == ns)).map (fun p => p.2)

/-- `vectors.entry(ns).or_insert_with(Vec::new).push(sv)`: append `sv` to the
namespace's vector list, creating the entry if absent. -/
def insertPush (m : NsMap) (ns : String) (sv : StoredVector) : NsMap :=
  if (m.find? (fun p => p.1 == ns)).isSome then
    m.map (fun p => if p.1 == ns then (p.1, p.2 ++ [sv]) else p)
  else
    m ++ [(ns, [sv])]

/-- `vectors.get_mut(ns)` followed by an in-place update: apply `f` to the
namespace's list if the entry exists, otherwise leave the map unchanged. -/
def updateNs (m : NsMap) (ns : String) (f : List StoredVector → List StoredVector) : NsMap :=
  m.map (fun p => if p.1 == ns then (p.1, f p.2) else p)

/-- `HashMap::remove(ns)`. -/
def removeNs (m : NsMap) (ns : String) : NsMap :=
  m.filter (fun p => !(p.1 == ns))

/-- `StableMemoryVectorStore`: the namespace map plus the namespace name list.
(The `Arc<RwLock<…>>` wrappers are concurrency plumbing around this state.) -/
structure StableMemoryVectorStore : Type where
  vectors : NsMap
  namespaces : List String
deriving DecidableEq, Repr

/-- `StableMemoryVectorStore::new`. -/
def StableMemoryVectorStore.new : StableMemoryVectorStore where
  vectors := []
  namespaces := []

/-- The state transition performed by `StableMemoryVectorStore::store`: push the
`StoredVector` onto the namespace entry (creating it if needed) and append the
namespace name to `namespaces` if not already present.  There is no id lookup, no
replacement, and no embedding-dimension check in the source. -/
def storeSt (s : StableMemoryVectorStore) (ns : String) (v : Vector) :
    StableMemoryVectorStore where
  vectors := insertPush s.vectors ns (toStored v)
  namespaces := if ns ∈ s.namespaces then s.namespaces else s.namespaces ++ [ns]

/-- `StableMemoryVectorStore::store` — always returns `Ok(())`. -/
def StableMemoryVectorStore.store (s : StableMemoryVectorStore) (ns : String) (v : Vector) :
    Except ContragError StableMemoryVectorStore :=
  .ok (storeSt s ns v)

/-- `StableMemoryVectorStore::store_batch`: `for v in vectors { self.store(ns, v)? }`. -/
def StableMemoryVectorStore.store_batch (s : StableMemoryVectorStore) (ns : String)
    (vs : List Vector) : Except ContragError StableMemoryVectorStore :=
  vs.foldlM (fun st v => st.store ns v) s

/-- The `(similarity, vector)` pairs computed by `search` over the namespace's
vectors, in stored (insertion) order.  `sim` stands for the similarity function the
source fixes to the f32 `cosine_similarity` of `vector_store/mod.rs`; all theorems
below hold for every `sim`. -/
def scoredOf (sim : List ℚ → List ℚ → ℚ) (q : List ℚ) (l : List StoredVector) :
    List (ℚ × StoredVector) :=
  l.map (fun v => (sim q v.embedding, v))

/-- The comparator of `results.sort_by(|a, b| b.0.partial_cmp(&a.0).unwrap_or(Equal))`:
`a` may precede `b` iff `b.0 ≤ a.0` (descending by score; `ℚ` has no NaN, and on
non-NaN f32 values `partial_cmp` is the total order). -/
def leScore (a b : ℚ × StoredVector) : Bool :=
  decide (b.1 ≤ a.1)

/-- `StableMemoryVectorStore::search`: error on a missing namespace entry, `Ok([])`
on an empty one, otherwise score every vector, stable-sort descending by score, take
`k`, and convert to `SearchResult`s. -/
def StableMemoryVectorStore.search (sim : List ℚ → List ℚ → ℚ)
    (s : StableMemoryVectorStore) (ns : String) (query_embedding : List ℚ) (k : Nat) :
    Except ContragError (List SearchResult) :=
  match lookupNs s.vectors ns with
  | none => .error (.VectorStoreError ("Namespace not found: " ++ ns))
  | some namespace_vectors =>
      if namespace_vectors.isEmpty then
        .ok []
      else
        .ok ((((isortBy leScore (scoredOf sim query_embedding namespace_vectors)).take k).map
          toSearchResult))

/-- `StableMemoryVectorStore::delete`: `retain(|v| v.id != vector_id)` on the
namespace entry if it exists; always `Ok(())`. -/
def StableMemoryVectorStore.delete (s : StableMemoryVectorStore) (ns : String)
    (vector_id : String) : Except ContragError StableMemoryVectorStore :=
  .ok { s with vectors := updateNs s.vectors ns (fun l => l.filter (fun v => !(v.id == vector_id))) }

/-- `StableMemoryVectorStore::delete_namespace`: remove the map entry and drop the
name from `namespaces`; always `Ok(())`. -/
def StableMemoryVectorStore.delete_namespace (s : StableMemoryVectorStore) (ns : String) :
    Except ContragError StableMemoryVectorStore :=
  .ok { vectors := removeNs s.vectors ns
        namespaces := s.namespaces.filter (fun n => !(n == ns)) }

/-- The value returned by `StableMemoryVectorStore::count`. -/
def countVal (s : StableMemoryVectorStore) (ns : String) : Nat :=
  ((lookupNs s.vectors ns).map List.length).getD 0

/-- `StableMemoryVectorStore::count`: `vectors.get(ns).map(|v| v.len()).unwrap_or(0)`. -/
def StableMemoryVectorStore.count (s : StableMemoryVectorStore) (ns : String) :
    Except ContragError Nat :=
  .ok (countVal s ns)

/-- `StableMemoryVectorStore::list_namespaces`. -/
def StableMemoryVectorStore.list_namespaces (s : StableMemoryVectorStore) :
    Except ContragError (List String) :=
  .ok s.namespaces

/-- The embedding length of the first vector ever stored in the namespace — the
"established dimension" the specification speaks of, read off the store state. -/
def establishedDimension (s : StableMemoryVectorStore) (ns : String) : Option Nat :=
  ((lookupNs s.vectors ns).bind List.head?).map (fun sv => sv.embedding.length)

/-! ## `embedders/mod.rs` -/

/-- A `HashMap<String, Vec<f32>>` whose iteration order *is* observed (by the
cache eviction); iteration order is implementation-defined in Rust and is modelled
here as insertion order. -/
abbrev CacheMap : Type := List (String × List ℚ)

/-- `HashMap::insert`: replace the value in place if the key exists, else append. -/
def hmInsert (m : CacheMap) (k : String) (v : List ℚ) : CacheMap :=
  if (m.find? (fun p => p.1 == k)).isSome then
    m.map (fun p => if p.1 == k then (p.1, v) else p)
  else
    m ++ [(k, v)]

/-- `HashMap::remove(k)`. -/
def hmRemove (m : CacheMap) (k : String) : CacheMap :=
  m.filter (fun p => !(p.1 == k))

/-- `EmbeddingCache` of `embedders/mod.rs`. -/
structure EmbeddingCache : Type where
  cache : CacheMap
  max_size : Nat
deriving DecidableEq, Repr

/-- `EmbeddingCache::new`. -/
def EmbeddingCache.new (max_size : Nat) : EmbeddingCache where
  cache := []
  max_size := max_size

/-- `EmbeddingCache::get` — takes `&self`: it returns the cached value and cannot
mutate the cache (in particular it cannot refresh any recency information). -/
def EmbeddingCache.get (c : EmbeddingCache) (text : String) : Option (List ℚ) :=
  (c.cache.find? (fun p => p.1 == text)).map (fun p => p.2)

/-- `EmbeddingCache::insert`: when `len >= max_size`, remove `cache.keys().next()`
(the first key in iteration order — *not* a least-recently-used key; the cache keeps
no recency data at all), then insert. -/
def EmbeddingCache.insert (c : EmbeddingCache) (text : String) (embedding : List ℚ) :
    EmbeddingCache :=
  let evicted : CacheMap :=
    if c.max_size ≤ c.cache.length then
      match c.cache.head? with
      | some p => hmRemove c.cache p.1
      | none => c.cache
    else c.cache
  { cache := hmInsert evicted text embedding, max_size := c.max_size }

/-- `EmbeddingCache::clear`. -/
def EmbeddingCache.clear (c : EmbeddingCache) : EmbeddingCache where
  cache := []
  max_size := c.max_size

/-- The cache-hit pairs `(original index, cached embedding)` pushed into `results`
by the first loop of `embed_with_cache`, in input order. -/
def cacheHits (c : EmbeddingCache) (texts : List String) : List (Nat × List ℚ) :=
  texts.enum.filterMap (fun p => (c.get p.2).map (fun e => (p.1, e)))

/-- The `to_embed` list of `embed_with_cache`: the cache-miss texts in input order,
duplicates included — the source performs no deduplication. -/
def missTexts (c : EmbeddingCache) (texts : List String) : List String :=
  texts.filter (fun t => (c.get t).isNone)

/-- The `indices` list of `embed_with_cache`: original positions of the cache
misses, in input order. -/
def missIndices (c : EmbeddingCache) (texts : List String) : List Nat :=
  (texts.enum.filter (fun p => (c.get p.2).isNone)).map (fun p => p.1)

/-- The comparator of `results.sort_by_key(|(idx, _)| *idx)` (stable, ascending). -/
def leIdx (a b : Nat × List ℚ) : Bool :=
  decide (a.1 ≤ b.1)

/-- `CachedEmbedder::embed_with_cache`.  `embedFn` stands for the injected
`Embedder::embed`; besides the reassembled results and the updated cache, the model
returns the list of batches passed to `embedFn` (so that "invoked at most once, and
only with cache misses" is a statement about the function).  The source pushes
hits/misses into three growing vectors while scanning `texts`; `cacheHits`,
`missTexts` and `missIndices` are those three vectors. -/
def embedWithCache (c : EmbeddingCache)
    (embedFn : List String → Except ContragError (List (List ℚ))) (texts : List String) :
    Except ContragError (List (List ℚ) × EmbeddingCache × List (List String)) :=
  let hits := cacheHits c texts
  let to_embed := missTexts c texts
  let indices := missIndices c texts
  if to_embed.isEmpty then
    .ok ((isortBy leIdx hits).map (fun p => p.2), c, [])
  else
    match embedFn to_embed with
    | .error e => .error e
    | .ok embeddings =>
        let c' := (to_embed.zip embeddings).foldl (fun cc p => cc.insert p.1 p.2) c
        let results := hits ++ indices.zip embeddings
        .ok ((isortBy leIdx results).map (fun p => p.2), c', [to_embed])

/-! ## `context_builder.rs` -/

/-- `ChunkingConfig` of `config.rs`. -/
structure ChunkingConfig : Type where
  chunk_size : Nat
  overlap : Nat
  include_field_names : Bool
deriving DecidableEq, Repr

/-- `TextChunk` of `types.rs`; the text is a list of Unicode scalar values, the
offsets are the byte offsets the source stores. -/
structure TextChunk : Type where
  text : List Char
  start_idx : Nat
  end_idx : Nat
  chunk_index : Nat
deriving DecidableEq, Repr

/-- `str::len()`: the UTF-8 byte length of the text. -/
def byteLen (t : List Char) : Nat :=
  (t.map Char.utf8Size).sum

/-- The boundary-character test of `find_word_boundary`. -/
def isBoundaryChar (ch : Char) : Bool :=
  ch.isWhitespace || ch == '.' || ch == '!' || ch == '?' || ch == '\n'

/-- `ContextBuilder::find_word_boundary`: scan `i` from `pos - 1` down to
`pos - 50` (saturating) over `text.chars().collect::<Vec<char>>()`, skipping
`i >= chars.len()`, and return `i + 1` for the first boundary character found, else
`pos`.  Note the source hands this *character* index back to byte-based slicing. -/
def find_word_boundary (t : List Char) (pos : Nat) : Nat :=
  match (List.range' (pos - 50) (min 50 pos)).reverse.find?
      (fun i => decide (i < t.length) && isBoundaryChar (t.getD i ' ')) with
  | some i => i + 1
  | none => pos

/-- Drop the first `n` bytes of `t`; `none` when `n` is not on a character
boundary or exceeds the text (a Rust byte-slicing panic). -/
def dropBytes : List Char → Nat → Option (List Char)
  | t, 0 => some t
  | [], _ + 1 => none
  | ch :: cs, n + 1 =>
      if ch.utf8Size ≤ n + 1 then dropBytes cs (n + 1 - ch.utf8Size) else none

/-- Take the first `n` bytes of `t`; `none` when `n` is not on a character
boundary or exceeds the text (a Rust byte-slicing panic). -/
def takeBytes : List Char → Nat → Option (List Char)
  | _, 0 => some []
  | [], _ + 1 => none
  | ch :: cs, n + 1 =>
      if ch.utf8Size ≤ n + 1 then (takeBytes cs (n + 1 - ch.utf8Size)).map (ch :: ·) else none

/-- `&text[s..e]`: `none` models the Rust panic (start past end, index out of
bounds, or a cut through a multi-byte character). -/
def byteSlice (t : List Char) (s e : Nat) : Option (List Char) :=
  if s ≤ e then (dropBytes t s).bind (fun t2 => takeBytes t2 (e - s)) else none

/-- Outcome of running `chunk_text`: normal return, a byte-slicing panic, or fuel
exhaustion (the `while` loop in the source is not guaranteed to terminate, so the
model bounds it by explicit fuel). -/
inductive ChunkOutcome : Type
  | done (chunks : List TextChunk)
  | panicked
  | outOfFuel
deriving DecidableEq, Repr

/-- The `while start < text.len()` loop of `ContextBuilder::chunk_text`, one
constructor step per iteration. -/
def chunkTextLoop (cfg : ChunkingConfig) (t : List Char) :
    Nat → Nat → Nat → List TextChunk → ChunkOutcome
  | 0, _, _, _ => .outOfFuel
  | fuel + 1, start, chunk_index, acc =>
      if start < byteLen t then
        let e := min (start + cfg.chunk_size) (byteLen t)
        let actual_end := if e < byteLen t then find_word_boundary t e else e
        match byteSlice t start actual_end with
        | none => .panicked
        | some sub =>
            let acc2 := acc ++ [⟨sub, start, actual_end, chunk_index⟩]
            if byteLen t ≤ actual_end then .done acc2
            else chunkTextLoop cfg t fuel (actual_end - cfg.overlap) (chunk_index + 1) acc2
      else .done acc

/-- `ContextBuilder::chunk_text`.  `start = actual_end.saturating_sub(overlap)` is
`Nat` subtraction.  No validation of `chunk_size`/`overlap` happens here. -/
def chunk_text (cfg : ChunkingConfig) (t : List Char) (fuel : Nat) : ChunkOutcome :=
  if byteLen t ≤ cfg.chunk_size then
    .done [⟨t, 0, byteLen t, 0⟩]
  else
    chunkTextLoop cfg t fuel 0 0 []

/-! ## `config.rs` -/

/-- `RelationshipConfig` of `config.rs`. -/
structure RelationshipConfig : Type where
  field_name : String
  target_entity : String
  relationship_type : String
deriving DecidableEq, Repr

/-- `EntityConfig` of `config.rs`. -/
structure EntityConfig : Type where
  name : String
  canister_id : String
  fetch_method : String
  fetch_many_method : Option String
  relationships : List RelationshipConfig
  auto_include : Bool
deriving DecidableEq, Repr

/-- `EmbedderConfigDef` of `config.rs`. -/
structure EmbedderConfigDef : Type where
  provider : String
  model : String
  dimensions : Nat
  api_endpoint : Option String
deriving DecidableEq, Repr

/-- `VectorStoreConfig` of `config.rs`. -/
structure VectorStoreConfig : Type where
  storage_type : String
  max_hot_vectors : Option Nat
  enable_cache : Bool
deriving DecidableEq, Repr

/-- `ContragConfig` of `config.rs`. -/
structure ContragConfig : Type where
  entities : List EntityConfig
  embedder : EmbedderConfigDef
  chunking : ChunkingConfig
  vector_store : VectorStoreConfig
  system_prompt : Option String
deriving DecidableEq, Repr

/-- `validate_config` of `config.rs`, check for check in source order.  The
chunking checks are `chunk_size == 0` and `overlap >= chunk_size`; `overlap == 0`
is accepted. -/
def validate_config (config : ContragConfig) : Except ContragError Unit :=
  if config.entities.isEmpty then
    .error (.InvalidConfig "At least one entity must be configured")
  else if config.embedder.dimensions == 0 then
    .error (.InvalidConfig "Embedder dimensions must be greater than 0")
  else if config.chunking.chunk_size == 0 then
    .error (.InvalidConfig "Chunk size must be greater than 0")
  else if config.chunking.chunk_size ≤ config.chunking.overlap then
    .error (.InvalidConfig "Overlap must be less than chunk size")
  else
    match config.entities.find? (fun entity =>
        entity.name.isEmpty || entity.canister_id.isEmpty) with
    | some entity =>
        if entity.name.isEmpty then
          .error (.InvalidConfig "Entity name cannot be empty")
        else
          .error (.InvalidConfig
            ("Canister ID for entity '" ++ entity.name ++ "' cannot be empty"))
    | none => .ok ()

/-! ## Operation sequences over the store

The mutating API surface of `StableMemoryVectorStore`; every operation in it
returns `Ok`, so running a sequence is total. -/

/-- A mutating store operation. -/
inductive Op : Type
  | store (ns : String) (v : Vector)
  | store_batch (ns : String) (vs : List Vector)
  | delete (ns : String) (vector_id : String)
  | delete_namespace (ns : String)

/-- Execute one operation (each returns `Ok` in the source; on the impossible
error the state is kept). -/
def exec (s : StableMemoryVectorStore) : Op → StableMemoryVectorStore
  | .store ns v =>
      match s.store ns v with
      | .ok s2 => s2
      | .error _ => s
  | .store_batch ns vs =>
      match s.store_batch ns vs with
      | .ok s2 => s2
      | .error _ => s
  | .delete ns id =>
      match s.delete ns id with
      | .ok s2 => s2
      | .error _ => s
  | .delete_namespace ns =>
      match s.delete_namespace ns with
      | .ok s2 => s2
      | .error _ => s

/-- Run a sequence of operations from a fresh store. -/
def run (ops : List Op) : StableMemoryVectorStore :=
  ops.foldl exec StableMemoryVectorStore.new

/-- Whether, after `ops` and starting from creation flag `b`, the namespace has
been stored into and not subsequently namespace-deleted.  A `store` creates the
namespace; a `store_batch` creates it iff its vector list is non-empty (the source
loops `store` over the vectors); `delete` never touches namespace existence;
`delete_namespace` destroys it. -/
def createdFrom (ns : String) (b : Bool) (ops : List Op) : Bool :=
  ops.foldl
    (fun acc op =>
      match op with
      | .store ns2 _ => acc || (ns2 == ns)
      | .store_batch ns2 vs => acc || ((ns2 == ns) && !vs.isEmpty)
      | .delete _ _ => acc
      | .delete_namespace ns2 => if ns2 == ns then false else acc)
    b

/-- Namespace existence after a fresh run of `ops`. -/
def created (ops : List Op) (ns : String) : Bool :=
  createdFrom ns false ops

/-- Modelled from the claim's words: the namespaces that have been stored into and
not subsequently namespace-deleted, each once, in first-creation order.  This is a
specification-side description, to be compared with the `namespaces` field the
source maintains. -/
def specNamespacesFrom (acc : List String) (ops : List Op) : List String :=
  ops.foldl
    (fun a op =>
      match op with
      | .store ns _ => if ns ∈ a then a else a ++ [ns]
      | .store_batch ns vs => if vs.isEmpty then a else if ns ∈ a then a else a ++ [ns]
      | .delete _ _ => a
      | .delete_namespace ns => a.filter (fun n => !(n == ns)))
    acc

/-- Modelled from the claim's words: expected `list_namespaces()` output. -/
def specNamespaces (ops : List Op) : List String :=
  specNamespacesFrom [] ops

/-! ## Association-map lemmas -/

theorem find?_filter_of_imp {α : Type} (p q : α → Bool) (l : List α)
    (h : ∀ a, p a = true → q a = true) : (l.filter q).find? p = l.find? p := by
  induction l with
  | nil => rfl
  | cons a l ih =>
      by_cases hq : q a
      · by_cases hp : p a
        · simp [List.filter_cons, hq, List.find?, hp]
        · simp [List.filter_cons, hq, List.find?, hp, ih]
      · have hp : p a = false := by
          cases hpa : p a
          · rfl
          · exact absurd (h a hpa) hq
        simp [List.filter_cons, hq, List.find?, hp, ih]

theorem keyFind_map_keyPreserving (m : NsMap) (ns : String)
    (g : String × List StoredVector → String × List StoredVector)
    (hkey : ∀ p, (g p).1 = p.1) :
    (m.map g).find? (fun p => p.1 == ns) =
      (m.find? (fun p => p.1 == ns)).map g := by
  have hpred : ((fun p : String × List StoredVector => p.1 == ns) ∘ g) =
      (fun p : String × List StoredVector => p.1 == ns) := by
    funext p
    simp [Function.comp, hkey p]
  rw [List.find?_map, hpred]

theorem lookupNs_updateNs (m : NsMap) (ns ns2 : String)
    (f : List StoredVector → List StoredVector) :
    lookupNs (updateNs m ns2 f) ns =
      if ns2 = ns then (lookupNs m ns).map f else lookupNs m ns := by
  unfold lookupNs updateNs
  rw [keyFind_map_keyPreserving]
  · cases hfind : m.find? (fun p => p.1 == ns) with
    | none => simp
    | some a =>
        have ha : a.1 = ns := by
          simpa using List.find?_some hfind
        by_cases hq : ns2 = ns
        · simp [ha, hq]
        · have hne : ¬(a.1 = ns2) := by
            rw [ha]
            intro hcontra
            exact hq hcontra.symm
          simp [hne, hq]
  · intro p
    by_cases hp : p.1 = ns2 <;> simp [hp]

theorem lookupNs_insertPush_self (m : NsMap) (ns : String) (sv : StoredVector) :
    lookupNs (insertPush m ns sv) ns = some (((lookupNs m ns).getD []) ++ [sv]) := by
  unfold insertPush
  by_cases hpres : (m.find? (fun p => p.1 == ns)).isSome
  · rcases Option.isSome_iff_exists.mp hpres with ⟨a, ha⟩
    have hakey : a.1 = ns := by
      simpa using List.find?_some ha
    simp only [hpres, if_true]
    unfold lookupNs
    rw [keyFind_map_keyPreserving]
    · simp [ha, hakey]
    · intro p
      by_cases hp : p.1 = ns <;> simp [hp]
  · have hnone : m.find? (fun p => p.1 == ns) = none :=
      Option.not_isSome_iff_eq_none.mp hpres
    simp only [hpres, if_false, Bool.false_eq_true]
    unfold lookupNs
    rw [List.find?_append, hnone]
    simp [hnone]

theorem lookupNs_insertPush_other (m : NsMap) (ns ns2 : String) (sv : StoredVector)
    (h : ns2 ≠ ns) : lookupNs (insertPush m ns2 sv) ns = lookupNs m ns := by
  unfold insertPush
  by_cases hpres : (m.find? (fun p => p.1 == ns2)).isSome
  · simp only [hpres, if_true]
    unfold lookupNs
    rw [keyFind_map_keyPreserving]
    · cases hfind : m.find? (fun p => p.1 == ns) with
      | none => simp
      | some a =>
          have ha : a.1 = ns := by
            simpa using List.find?_some hfind
          have hne : ¬(a.1 = ns2) := by
            rw [ha]
            intro hcontra
            exact h hcontra.symm
          simp [hne]
    · intro p
      by_cases hp : p.1 = ns2 <;> simp [hp]
  · simp only [hpres, if_false, Bool.false_eq_true]
    unfold lookupNs
    rw [List.find?_append]
    have hbeq : (ns2 == ns) = false := by
      simp [h]
    have htl : List.find? (fun p => p.1 == ns) [(ns2, [sv])] = none := by
      simp [List.find?, hbeq]
    rw [htl]
    cases m.find? (fun p => p.1 == ns) <;> rfl

theorem lookupNs_removeNs (m : NsMap) (ns ns2 : String) :
    lookupNs (removeNs m ns2) ns = if ns2 = ns then none else lookupNs m ns := by
  unfold lookupNs removeNs
  by_cases hq : ns2 = ns
  · subst hq
    have : List.find? (fun p => p.1 == ns2) (m.filter (fun p => !(p.1 == ns2))) = none := by
      rw [List.find?_eq_none]
      intro a hmem
      have := List.of_mem_filter hmem
      simp at this ⊢
      exact this
    simp [this]
  · rw [find?_filter_of_imp]
    · simp [hq]
    · intro a hpa
      have ha : a.1 = ns := by
        simpa using hpa
      simp [ha]
      intro hcontra
      exact hq hcontra.symm

/-! ## State evolution lemmas -/

/-- The unrolled loop of `store_batch` (proof infrastructure). -/
def foldStore (ns : String) (vs : List Vector) (s : StableMemoryVectorStore) :
    StableMemoryVectorStore :=
  vs.foldl (fun st v => storeSt st ns v) s

theorem store_batch_ok (s : StableMemoryVectorStore) (ns : String) (vs : List Vector) :
    s.store_batch ns vs = .ok (foldStore ns vs s) := by
  induction vs generalizing s with
  | nil => rfl
  | cons v vs ih =>
      simp only [StableMemoryVectorStore.store_batch, List.foldlM, foldStore] at ih ⊢
      simpa [StableMemoryVectorStore.store, Except.bind] using ih (storeSt s ns v)

theorem exec_store (s : StableMemoryVectorStore) (ns : String) (v : Vector) :
    exec s (.store ns v) = storeSt s ns v := rfl

theorem exec_store_batch (s : StableMemoryVectorStore) (ns : String) (vs : List Vector) :
    exec s (.store_batch ns vs) = foldStore ns vs s := by
  simp [exec, store_batch_ok]

theorem exec_delete (s : StableMemoryVectorStore) (ns id : String) :
    exec s (.delete ns id) =
      { s with vectors := updateNs s.vectors ns (fun l => l.filter (fun v => !(v.id == id))) } :=
  rfl

theorem exec_delete_namespace (s : StableMemoryVectorStore) (ns : String) :
    exec s (.delete_namespace ns) =
      { vectors := removeNs s.vectors ns
        namespaces := s.namespaces.filter (fun n => !(n == ns)) } :=
  rfl

theorem storeSt_lookup_isSome (s : StableMemoryVectorStore) (ns ns2 : String) (v : Vector) :
    (lookupNs (storeSt s ns2 v).vectors ns).isSome =
      ((lookupNs s.vectors ns).isSome || (ns2 == ns)) := by
  by_cases h : ns2 = ns
  · subst h
    simp [storeSt, lookupNs_insertPush_self]
  · have hbeq : (ns2 == ns) = false := by
      simp [h]
    simp [storeSt, lookupNs_insertPush_other s.vectors ns ns2 (toStored v) h, hbeq]

theorem storeSt_namespaces (s : StableMemoryVectorStore) (ns : String) (v : Vector) :
    (storeSt s ns v).namespaces =
      if ns ∈ s.namespaces then s.namespaces else s.namespaces ++ [ns] := rfl

theorem mem_storeSt_namespaces (s : StableMemoryVectorStore) (ns : String) (v : Vector) :
    ns ∈ (storeSt s ns v).namespaces := by
  rw [storeSt_namespaces]
  by_cases h : ns ∈ s.namespaces
  · simpa [h] using h
  · simp [h]

theorem foldStore_namespaces_of_mem (ns : String) (vs : List Vector)
    (s : StableMemoryVectorStore) (h : ns ∈ s.namespaces) :
    (foldStore ns vs s).namespaces = s.namespaces := by
  induction vs generalizing s with
  | nil => rfl
  | cons v vs ih =>
      have hst : (storeSt s ns v).namespaces = s.namespaces := by
        rw [storeSt_namespaces]
        simp [h]
      have := ih (storeSt s ns v) (by rw [hst]; exact h)
      simpa [foldStore, this] using hst ▸ this

theorem foldStore_namespaces (ns : String) (vs : List Vector) (s : StableMemoryVectorStore) :
    (foldStore ns vs s).namespaces =
      if vs.isEmpty then s.namespaces
      else if ns ∈ s.namespaces then s.namespaces else s.namespaces ++ [ns] := by
  cases vs with
  | nil => rfl
  | cons v vs =>
      have hmem : ns ∈ (storeSt s ns v).namespaces := mem_storeSt_namespaces s ns v
      have hrest := foldStore_namespaces_of_mem ns vs (storeSt s ns v) hmem
      simp only [foldStore, List.foldl_cons] at hrest ⊢
      rw [hrest, storeSt_namespaces]
      simp

theorem foldStore_lookup_isSome (ns ns2 : String) (vs : List Vector)
    (s : StableMemoryVectorStore) :
    (lookupNs (foldStore ns2 vs s).vectors ns).isSome =
      ((lookupNs s.vectors ns).isSome || ((ns2 == ns) && !vs.isEmpty)) := by
  induction vs generalizing s with
  | nil => simp [foldStore]
  | cons v vs ih =>
      have hstep := storeSt_lookup_isSome s ns ns2 v
      have := ih (storeSt s ns2 v)
      simp only [foldStore, List.foldl_cons] at this ⊢
      rw [this, hstep]
      cases hb : (lookupNs s.vectors ns).isSome <;> cases hc : (ns2 == ns) <;>
        cases hd : vs.isEmpty <;> simp

theorem run_append (ops : List Op) (op : Op) :
    run (ops ++ [op]) = exec (run ops) op := by
  simp [run, List.foldl_append]

theorem createdFrom_cons_store (ns ns2 : String) (v : Vector) (b : Bool) (ops : List Op) :
    createdFrom ns b (.store ns2 v :: ops) = createdFrom ns (b || (ns2 == ns)) ops := rfl

theorem createdFrom_cons_batch (ns ns2 : String) (vs : List Vector) (b : Bool) (ops : List Op) :
    createdFrom ns b (.store_batch ns2 vs :: ops) =
      createdFrom ns (b || ((ns2 == ns) && !vs.isEmpty)) ops := rfl

theorem createdFrom_cons_delete (ns ns2 id : String) (b : Bool) (ops : List Op) :
    createdFrom ns b (.delete ns2 id :: ops) = createdFrom ns b ops := rfl

theorem createdFrom_cons_delete_namespace (ns ns2 : String) (b : Bool) (ops : List Op) :
    createdFrom ns b (.delete_namespace ns2 :: ops) =
      createdFrom ns (if ns2 == ns then false else b) ops := rfl

theorem createdFrom_run (ns : String) (ops : List Op) :
    ∀ s : StableMemoryVectorStore,
      (lookupNs ((ops.foldl exec s).vectors) ns).isSome =
        createdFrom ns ((lookupNs s.vectors ns).isSome) ops := by
  induction ops with
  | nil => intro s; rfl
  | cons op ops ih =>
      intro s
      rw [List.foldl_cons]
      cases op with
      | store ns2 v =>
          rw [exec_store, ih (storeSt s ns2 v), createdFrom_cons_store]
          exact congrArg (fun b => createdFrom ns b ops) (storeSt_lookup_isSome s ns ns2 v)
      | store_batch ns2 vs =>
          rw [exec_store_batch, ih (foldStore ns2 vs s), createdFrom_cons_batch]
          exact congrArg (fun b => createdFrom ns b ops) (foldStore_lookup_isSome ns ns2 vs s)
      | delete ns2 id =>
          rw [ih (exec s (.delete ns2 id)), createdFrom_cons_delete]
          refine congrArg (fun b => createdFrom ns b ops) ?_
          rw [exec_delete]
          have hlk := lookupNs_updateNs s.vectors ns ns2
            (fun l => l.filter (fun v => !(v.id == id)))
          by_cases h : ns2 = ns
          · subst h
            rw [hlk, if_pos rfl]
            cases lookupNs s.vectors ns2 <;> rfl
          · rw [hlk, if_neg h]
      | delete_namespace ns2 =>
          rw [ih (exec s (.delete_namespace ns2)), createdFrom_cons_delete_namespace]
          refine congrArg (fun b => createdFrom ns b ops) ?_
          rw [exec_delete_namespace]
          have hlk := lookupNs_removeNs s.vectors ns ns2
          by_cases h : ns2 = ns
          · subst h
            rw [hlk, if_pos rfl]
            simp
          · have hbeq : (ns2 == ns) = false := by
              simp [h]
            rw [hlk, if_neg h, hbeq]
            rfl

theorem created_iff_lookup (ops : List Op) (ns : String) :
    (lookupNs (run ops).vectors ns).isSome = created ops ns := by
  have := createdFrom_run ns ops StableMemoryVectorStore.new
  simpa [run, created, StableMemoryVectorStore.new, lookupNs] using this

theorem specFrom_cons_store (acc : List String) (ns : String) (v : Vector) (ops : List Op) :
    specNamespacesFrom acc (.store ns v :: ops) =
      specNamespacesFrom (if ns ∈ acc then acc else acc ++ [ns]) ops := rfl

theorem specFrom_cons_batch (acc : List String) (ns : String) (vs : List Vector)
    (ops : List Op) :
    specNamespacesFrom acc (.store_batch ns vs :: ops) =
      specNamespacesFrom
        (if vs.isEmpty then acc else if ns ∈ acc then acc else acc ++ [ns]) ops := rfl

theorem specFrom_cons_delete (acc : List String) (ns id : String) (ops : List Op) :
    specNamespacesFrom acc (.delete ns id :: ops) = specNamespacesFrom acc ops := rfl

theorem specFrom_cons_delete_namespace (acc : List String) (ns : String) (ops : List Op) :
    specNamespacesFrom acc (.delete_namespace ns :: ops) =
      specNamespacesFrom (acc.filter (fun n => !(n == ns))) ops := rfl

theorem nodup_append_singleton {acc : List String} {ns : String}
    (h : acc.Nodup) (hm : ns ∉ acc) : (acc ++ [ns]).Nodup := by
  rw [List.nodup_append]
  refine ⟨h, List.nodup_singleton ns, ?_⟩
  intro a ha hb
  rw [List.mem_singleton] at hb
  subst hb
  exact hm ha

theorem namespaces_run (ops : List Op) :
    ∀ s : StableMemoryVectorStore,
      (ops.foldl exec s).namespaces = specNamespacesFrom s.namespaces ops := by
  induction ops with
  | nil => intro s; rfl
  | cons op ops ih =>
      intro s
      rw [List.foldl_cons]
      cases op with
      | store ns v =>
          rw [exec_store, ih (storeSt s ns v), specFrom_cons_store]
          exact congrArg (fun a => specNamespacesFrom a ops) (storeSt_namespaces s ns v)
      | store_batch ns vs =>
          rw [exec_store_batch, ih (foldStore ns vs s), specFrom_cons_batch]
          exact congrArg (fun a => specNamespacesFrom a ops) (foldStore_namespaces ns vs s)
      | delete ns id =>
          rw [ih (exec s (.delete ns id)), specFrom_cons_delete]
          rfl
      | delete_namespace ns =>
          rw [ih (exec s (.delete_namespace ns)), specFrom_cons_delete_namespace]
          rfl

theorem run_namespaces (ops : List Op) : (run ops).namespaces = specNamespaces ops := by
  have := namespaces_run ops StableMemoryVectorStore.new
  simpa [run, specNamespaces, StableMemoryVectorStore.new] using this

theorem specNamespacesFrom_nodup (ops : List Op) :
    ∀ acc : List String, acc.Nodup → (specNamespacesFrom acc ops).Nodup := by
  induction ops with
  | nil => intro acc h; exact h
  | cons op ops ih =>
      intro acc h
      cases op with
      | store ns v =>
          rw [specFrom_cons_store]
          by_cases hm : ns ∈ acc
          · rw [if_pos hm]
            exact ih acc h
          · rw [if_neg hm]
            exact ih _ (nodup_append_singleton h hm)
      | store_batch ns vs =>
          rw [specFrom_cons_batch]
          by_cases he : vs.isEmpty
          · rw [if_pos he]
            exact ih acc h
          · rw [if_neg he]
            by_cases hm : ns ∈ acc
            · rw [if_pos hm]
              exact ih acc h
            · rw [if_neg hm]
              exact ih _ (nodup_append_singleton h hm)
      | delete ns id =>
          rw [specFrom_cons_delete]
          exact ih acc h
      | delete_namespace ns =>
          rw [specFrom_cons_delete_namespace]
          exact ih _ (List.Nodup.filter _ h)

theorem mem_specNamespacesFrom (ns : String) (ops : List Op) :
    ∀ (acc : List String) (b : Bool), (ns ∈ acc ↔ b = true) →
      (ns ∈ specNamespacesFrom acc ops ↔ createdFrom ns b ops = true) := by
  induction ops with
  | nil => intro acc b hb; exact hb
  | cons op ops ih =>
      intro acc b hb
      cases op with
      | store ns2 v =>
          rw [specFrom_cons_store, createdFrom_cons_store]
          refine ih _ _ ?_
          by_cases h : ns2 = ns
          · subst h
            have hmem : ns2 ∈ (if ns2 ∈ acc then acc else acc ++ [ns2]) := by
              by_cases hm : ns2 ∈ acc
              · rw [if_pos hm]; exact hm
              · rw [if_neg hm]
                exact List.mem_append.mpr (Or.inr (List.mem_singleton.mpr rfl))
            simp [hmem]
          · have hbeq : (ns2 == ns) = false := by
              simp [h]
            rw [hbeq, Bool.or_false]
            by_cases hm : ns2 ∈ acc
            · rw [if_pos hm]; exact hb
            · rw [if_neg hm, List.mem_append, List.mem_singleton]
              constructor
              · intro hc
                rcases hc with hc | hc
                · exact hb.mp hc
                · exact absurd hc.symm h
              · intro hc
                exact Or.inl (hb.mpr hc)
      | store_batch ns2 vs =>
          rw [specFrom_cons_batch, createdFrom_cons_batch]
          refine ih _ _ ?_
          by_cases he : vs.isEmpty
          · rw [if_pos he, he]
            simpa using hb
          · have hne : vs.isEmpty = false := by
              simpa using he
            rw [if_neg he, hne]
            simp only [Bool.not_false, Bool.and_true]
            by_cases h : ns2 = ns
            · subst h
              have hmem : ns2 ∈ (if ns2 ∈ acc then acc else acc ++ [ns2]) := by
                by_cases hm : ns2 ∈ acc
                · rw [if_pos hm]; exact hm
                · rw [if_neg hm]
                  exact List.mem_append.mpr (Or.inr (List.mem_singleton.mpr rfl))
              simp [hmem]
            · have hbeq : (ns2 == ns) = false := by
                simp [h]
              rw [hbeq, Bool.or_false]
              by_cases hm : ns2 ∈ acc
              · rw [if_pos hm]; exact hb
              · rw [if_neg hm, List.mem_append, List.mem_singleton]
                constructor
                · intro hc
                  rcases hc with hc | hc
                  · exact hb.mp hc
                  · exact absurd hc.symm h
                · intro hc
                  exact Or.inl (hb.mpr hc)
      | delete ns2 id =>
          rw [specFrom_cons_delete, createdFrom_cons_delete]
          exact ih _ _ hb
      | delete_namespace ns2 =>
          rw [specFrom_cons_delete_namespace, createdFrom_cons_delete_namespace]
          refine ih _ _ ?_
          by_cases h : ns2 = ns
          · subst h
            have hbeq : (ns2 == ns2) = true := by simp
            rw [hbeq]
            simp only [if_true]
            constructor
            · intro hc
              have := List.of_mem_filter hc
              simp at this
            · intro hc
              cases hc
          · have hbeq : (ns2 == ns) = false := by
              simp [h]
            rw [hbeq]
            simp only [if_false, Bool.false_eq_true]
            constructor
            · intro hc
              exact hb.mp (List.mem_of_mem_filter hc)
            · intro hc
              refine List.mem_filter.mpr ⟨hb.mpr hc, ?_⟩
              simp
              intro hcontra
              exact h hcontra.symm

theorem mem_run_namespaces_iff (ops : List Op) (ns : String) :
    ns ∈ (run ops).namespaces ↔ created ops ns = true := by
  rw [run_namespaces]
  exact mem_specNamespacesFrom ns ops [] false (by simp)

/-! ## Enumeration and zip lemmas -/

theorem mem_enumFrom_le {α : Type} (l : List α) :
    ∀ (n : Nat) (p : Nat × α), p ∈ List.enumFrom n l → n ≤ p.1 := by
  induction l with
  | nil => intro n p h; cases h
  | cons x xs ih =>
      intro n p h
      rcases List.mem_cons.mp h with hp | hp
      · rw [hp]
      · exact le_trans (Nat.le_succ n) (ih (n + 1) p hp)

theorem pairwise_enumFrom_lt {α : Type} (l : List α) :
    ∀ n : Nat, (List.enumFrom n l).Pairwise (fun a b => a.1 < b.1) := by
  induction l with
  | nil => intro n; exact List.Pairwise.nil
  | cons x xs ih =>
      intro n
      refine List.pairwise_cons.mpr ⟨?_, ih (n + 1)⟩
      intro p hp
      exact lt_of_lt_of_le (Nat.lt_succ_self n) (mem_enumFrom_le xs (n + 1) p hp)

theorem pairwise_enum_lt {α : Type} (l : List α) :
    l.enum.Pairwise (fun a b => a.1 < b.1) :=
  pairwise_enumFrom_lt l 0

theorem get?_zip_eq {α β : Type} :
    ∀ (l₁ : List α) (l₂ : List β) (n : Nat) (a : α) (b : β),
      l₁.get? n = some a → l₂.get? n = some b → (l₁.zip l₂).get? n = some (a, b) := by
  intro l₁
  induction l₁ with
  | nil => intro l₂ n a b h1; cases n <;> cases h1
  | cons x xs ih =>
      intro l₂ n a b h1 h2
      cases l₂ with
      | nil => cases n <;> cases h2
      | cons y ys =>
          cases n with
          | zero =>
              cases h1
              cases h2
              rfl
          | succ n => exact ih ys n a b h1 h2

/-! ## Search behaviour -/

theorem search_of_lookup_none (sim : List ℚ → List ℚ → ℚ) (s : StableMemoryVectorStore)
    (ns : String) (q : List ℚ) (k : Nat) (h : lookupNs s.vectors ns = none) :
    s.search sim ns q k = .error (.VectorStoreError ("Namespace not found: " ++ ns)) := by
  unfold StableMemoryVectorStore.search
  rw [h]

theorem search_of_lookup_some (sim : List ℚ → List ℚ → ℚ) (s : StableMemoryVectorStore)
    (ns : String) (q : List ℚ) (k : Nat) (l : List StoredVector)
    (h : lookupNs s.vectors ns = some l) (hne : l.isEmpty = false) :
    s.search sim ns q k =
      .ok (((isortBy leScore (scoredOf sim q l)).take k).map toSearchResult) := by
  unfold StableMemoryVectorStore.search
  rw [h]
  simp [hne]

theorem search_of_lookup_empty (sim : List ℚ → List ℚ → ℚ) (s : StableMemoryVectorStore)
    (ns : String) (q : List ℚ) (k : Nat) (h : lookupNs s.vectors ns = some []) :
    s.search sim ns q k = .ok [] := by
  unfold StableMemoryVectorStore.search
  rw [h]
  simp

/-- C3: for an existing non-empty namespace, `search` returns the stored vectors
ordered by descending similarity score, with equal scores ordered by ascending
original insertion position, and returns exactly `min k count` results.  `L` is the
ranked enumeration of the scored vectors: a permutation of the insertion-indexed
`(score, vector)` pairs, pairwise in strictly descending (score, tie: ascending
index) order, whose indexed-stripped `k`-prefix is exactly what `search` returns. -/
theorem search_ranking (sim : List ℚ → List ℚ → ℚ) (s : StableMemoryVectorStore)
    (ns : String) (q : List ℚ) (k : Nat) (l : List StoredVector)
    (hl : lookupNs s.vectors ns = some l) (hne : l.isEmpty = false) :
    ∃ L : List (Nat × (ℚ × StoredVector)),
      List.Perm L (scoredOf sim q l).enum ∧
      L.Pairwise (Rdesc (fun e : Nat × (ℚ × StoredVector) => e.2.1) (fun e => e.1)) ∧
      s.search sim ns q k = .ok (((L.map Prod.snd).take k).map toSearchResult) ∧
      (((L.map Prod.snd).take k).map toSearchResult).length = min k (countVal s ns) := by
  classical
  refine ⟨isortBy (fun a b => decide (b.2.1 ≤ a.2.1)) (scoredOf sim q l).enum,
    isortBy_perm _ _, ?_, ?_, ?_⟩
  · exact isortBy_pairwise_rdesc (fun e : Nat × (ℚ × StoredVector) => e.2.1) (fun e => e.1) _
      (pairwise_enum_lt (scoredOf sim q l))
  · rw [search_of_lookup_some sim s ns q k l hl hne]
    have hmap : (isortBy (fun a b => decide (b.2.1 ≤ a.2.1)) (scoredOf sim q l).enum).map
        Prod.snd = isortBy leScore (scoredOf sim q l) := by
      have hm := map_isortBy leScore Prod.snd (scoredOf sim q l).enum
      rw [List.enum_map_snd] at hm
      exact hm
    rw [hmap]
  · have hmap : (isortBy (fun a b => decide (b.2.1 ≤ a.2.1)) (scoredOf sim q l).enum).map
        Prod.snd = isortBy leScore (scoredOf sim q l) := by
      have hm := map_isortBy leScore Prod.snd (scoredOf sim q l).enum
      rw [List.enum_map_snd] at hm
      exact hm
    rw [hmap, List.length_map, List.length_take, length_isortBy]
    have hcount : countVal s ns = l.length := by
      simp [countVal, hl]
    rw [hcount]
    simp [scoredOf]

/-- Decidable equality for `Except` results (used to evaluate concrete outcomes). -/
instance {e a : Type} [DecidableEq e] [DecidableEq a] : DecidableEq (Except e a) := fun x y =>
  match x, y with
  | .ok v, .ok w =>
      if h : v = w then .isTrue (by rw [h]) else .isFalse (by intro hc; cases hc; exact h rfl)
  | .ok _, .error _ => .isFalse (by intro hc; cases hc)
  | .error _, .ok _ => .isFalse (by intro hc; cases hc)
  | .error v, .error w =>
      if h : v = w then .isTrue (by rw [h]) else .isFalse (by intro hc; cases hc; exact h rfl)

/-! ## Concrete inputs used by witnesses and counterexamples -/

/-- A trivial similarity function used to instantiate `sim` in witnesses. -/
def simZero : List ℚ → List ℚ → ℚ := fun _ _ => 0

/-- Shared metadata for concrete vectors. -/
def meta0 : VectorMetadata where
  entity_type := "User"
  entity_id := "1"
  chunk_index := 0
  total_chunks := 1
  timestamp := 0
  custom := none

/-- First concrete vector (id `User::1::chunk_0`). -/
def v1c : Vector where
  id := "User::1::chunk_0"
  embedding := [1]
  text := "first"
  metadata := meta0

/-- Second concrete vector with the *same id* as `v1c` but different payload. -/
def v2c : Vector where
  id := "User::1::chunk_0"
  embedding := [2]
  text := "second"
  metadata := meta0

/-- Store state after storing `v1c` into namespace `users`. -/
def c1s1 : StableMemoryVectorStore := storeSt StableMemoryVectorStore.new "users" v1c

/-- Store state after storing `v1c` then `v2c` (same id) into namespace `users`. -/
def c1s2 : StableMemoryVectorStore := storeSt c1s1 "users" v2c

/-- A 3-dimensional concrete vector. -/
def c2v1 : Vector where
  id := "a"
  embedding := [1, 2, 3]
  text := "t1"
  metadata := meta0

/-- A 2-dimensional concrete vector (mismatching `c2v1`). -/
def c2v2 : Vector where
  id := "b"
  embedding := [4, 5]
  text := "t2"
  metadata := meta0

/-- Store state after storing the 3-dimensional `c2v1` into namespace `vecs`. -/
def c2s1 : StableMemoryVectorStore := storeSt StableMemoryVectorStore.new "vecs" c2v1

/-- Store state after additionally storing the 2-dimensional `c2v2`. -/
def c2s2 : StableMemoryVectorStore := storeSt c2s1 "vecs" c2v2

/-- An op sequence creating namespace `a`. -/
def opsA : List Op := [.store "a" v1c]

/-- An op sequence that stores one vector into `b` and then deletes it by id,
leaving the namespace existing but empty. -/
def opsB : List Op := [.store "b" v1c, .delete "b" v1c.id]

/-! ## Claim C1 -/

/-- C1 counterexample: from a fresh store, storing two vectors with the same id
leaves `count = 2`, not `1` — `store` appends a duplicate instead of upserting. -/
theorem store_upsert_counterexample :
    v1c.id = v2c.id ∧
    StableMemoryVectorStore.new.store "users" v1c = .ok c1s1 ∧
    c1s1.store "users" v2c = .ok c1s2 ∧
    c1s2.count "users" = .ok 2 ∧ ¬(c1s2.count "users" = .ok 1) := by
  refine ⟨rfl, rfl, rfl, rfl, ?_⟩
  decide

/-- C1 (amended): for every namespace and pair of vectors sharing the same id,
calling `store` for the first and then the second (from a fresh store) leaves
`count(namespace) = 2` — the duplicate is appended, never replaced — and a
subsequent `search` returns both vectors' payloads. -/
theorem store_duplicate_append (ns : String) (v1 v2 : Vector)
    (sim : List ℚ → List ℚ → ℚ) (q : List ℚ) (hid : v1.id = v2.id) :
    ∃ s1 s2, StableMemoryVectorStore.new.store ns v1 = .ok s1 ∧
      s1.store ns v2 = .ok s2 ∧ s2.count ns = .ok 2 ∧
      ∃ r, s2.search sim ns q 2 = .ok r ∧
        List.Perm (r.map SearchResult.vector_id) [v1.id, v2.id] ∧
        List.Perm (r.map SearchResult.text) [v1.text, v2.text] := by
  have hlk1 : lookupNs (storeSt StableMemoryVectorStore.new ns v1).vectors ns =
      some [toStored v1] := by
    have h0 := lookupNs_insertPush_self StableMemoryVectorStore.new.vectors ns (toStored v1)
    simpa [lookupNs, StableMemoryVectorStore.new] using h0
  have hlk2 : lookupNs (storeSt (storeSt StableMemoryVectorStore.new ns v1) ns v2).vectors ns =
      some [toStored v1, toStored v2] := by
    have h0 := lookupNs_insertPush_self
      (storeSt StableMemoryVectorStore.new ns v1).vectors ns (toStored v2)
    rw [hlk1] at h0
    simpa using h0
  refine ⟨storeSt StableMemoryVectorStore.new ns v1,
    storeSt (storeSt StableMemoryVectorStore.new ns v1) ns v2, rfl, rfl, ?_, ?_⟩
  · simp [StableMemoryVectorStore.count, countVal, hlk2]
  · have hs := search_of_lookup_some sim _ ns q 2 [toStored v1, toStored v2] hlk2 rfl
    have hlen : (isortBy leScore (scoredOf sim q [toStored v1, toStored v2])).length = 2 := by
      rw [length_isortBy]
      rfl
    have htake : (isortBy leScore (scoredOf sim q [toStored v1, toStored v2])).take 2 =
        isortBy leScore (scoredOf sim q [toStored v1, toStored v2]) :=
      List.take_of_length_le (le_of_eq hlen)
    rw [htake] at hs
    have hperm := isortBy_perm leScore (scoredOf sim q [toStored v1, toStored v2])
    refine ⟨_, hs, ?_, ?_⟩
    · rw [List.map_map]
      exact hperm.map (SearchResult.vector_id ∘ toSearchResult)
    · rw [List.map_map]
      exact hperm.map (SearchResult.text ∘ toSearchResult)

/-- Witness for C1's amended theorem at the concrete pair `v1c`, `v2c`. -/
theorem store_duplicate_append_witness :
    ∃ s1 s2, StableMemoryVectorStore.new.store "users" v1c = .ok s1 ∧
      s1.store "users" v2c = .ok s2 ∧ s2.count "users" = .ok 2 ∧
      ∃ r, s2.search simZero "users" [] 2 = .ok r ∧
        List.Perm (r.map SearchResult.vector_id) [v1c.id, v2c.id] ∧
        List.Perm (r.map SearchResult.text) [v1c.text, v2c.text] :=
  store_duplicate_append "users" v1c v2c simZero [] rfl

/-! ## Claim C2 -/

/-- C2 counterexample: the namespace `vecs` has established dimension 3, yet
storing the 2-dimensional `c2v2` succeeds (`Ok`) and mutates the store to
`count = 2`; no `DimensionMismatch` is raised. -/
theorem store_dimension_counterexample :
    establishedDimension c2s1 "vecs" = some 3 ∧
    c2v2.embedding.length ≠ 3 ∧
    c2s1.store "vecs" c2v2 = .ok c2s2 ∧
    c2s2.count "vecs" = .ok 2 := by
  refine ⟨by decide, by decide, rfl, by decide⟩

/-- C2 (amended): `store` performs no dimension check at all: even when the
namespace has an established dimension `d` and the new vector's embedding length
differs from `d`, the call succeeds and appends the vector (count grows by one,
and the namespace's list gains exactly the new vector at its end). -/
theorem store_no_dimension_check (s : StableMemoryVectorStore) (ns : String) (v : Vector)
    (d : Nat) (hd : establishedDimension s ns = some d) (hne : v.embedding.length ≠ d) :
    s.store ns v = .ok (storeSt s ns v) ∧
    (storeSt s ns v).count ns = .ok (countVal s ns + 1) ∧
    lookupNs (storeSt s ns v).vectors ns =
      some (((lookupNs s.vectors ns).getD []) ++ [toStored v]) := by
  have hlk : lookupNs (storeSt s ns v).vectors ns =
      some (((lookupNs s.vectors ns).getD []) ++ [toStored v]) :=
    lookupNs_insertPush_self s.vectors ns (toStored v)
  refine ⟨rfl, ?_, hlk⟩
  obtain ⟨l, hl⟩ : ∃ l, lookupNs s.vectors ns = some l := by
    cases hlkup : lookupNs s.vectors ns with
    | none =>
        exfalso
        rw [establishedDimension, hlkup] at hd
        cases hd
    | some l => exact ⟨l, rfl⟩
  simp [StableMemoryVectorStore.count, countVal, hlk, hl]

/-- Witness for C2's amended theorem at the concrete mismatching pair. -/
theorem store_no_dimension_check_witness :
    c2s1.store "vecs" c2v2 = .ok (storeSt c2s1 "vecs" c2v2) ∧
    (storeSt c2s1 "vecs" c2v2).count "vecs" = .ok (countVal c2s1 "vecs" + 1) ∧
    lookupNs (storeSt c2s1 "vecs" c2v2).vectors "vecs" =
      some (((lookupNs c2s1.vectors "vecs").getD []) ++ [toStored c2v2]) :=
  store_no_dimension_check c2s1 "vecs" c2v2 3 (by decide) (by decide)

/-! ## Claim C6 -/

/-- C6: `search` fails — with the namespace-not-found failure, raised as
`VectorStoreError("Namespace not found: {ns}")` (the `ContragError` enum has no
dedicated `NamespaceNotFound` variant) — exactly when the namespace has never been
created or has been namespace-deleted; when the namespace exists it always returns
`Ok`, and in particular `Ok([])` (not an error) when it holds zero vectors. -/
theorem search_missing_namespace (sim : List ℚ → List ℚ → ℚ) (ops : List Op) (ns : String)
    (q : List ℚ) (k : Nat) :
    (created ops ns = false →
      (run ops).search sim ns q k =
        .error (.VectorStoreError ("Namespace not found: " ++ ns))) ∧
    (created ops ns = true →
      ∃ r, (run ops).search sim ns q k = .ok r ∧ (countVal (run ops) ns = 0 → r = [])) := by
  constructor
  · intro h
    have h2 : (lookupNs (run ops).vectors ns).isSome = false := by
      rw [created_iff_lookup, h]
    have hl : lookupNs (run ops).vectors ns = none :=
      Option.not_isSome_iff_eq_none.mp (by simp [h2])
    exact search_of_lookup_none sim _ ns q k hl
  · intro h
    have hsome : (lookupNs (run ops).vectors ns).isSome := by
      rw [created_iff_lookup, h]
    obtain ⟨l, hl⟩ := Option.isSome_iff_exists.mp hsome
    cases l with
    | nil => exact ⟨[], search_of_lookup_empty sim _ ns q k hl, fun _ => rfl⟩
    | cons x xs =>
        refine ⟨_, search_of_lookup_some sim _ ns q k (x :: xs) hl rfl, ?_⟩
        intro hc
        exfalso
        simp [countVal, hl] at hc

/-- Witness for C3 at a concrete two-vector namespace with `k = 1`. -/
theorem search_ranking_witness :
    ∃ L : List (Nat × (ℚ × StoredVector)),
      List.Perm L (scoredOf simZero [] [toStored v1c, toStored v2c]).enum ∧
      L.Pairwise (Rdesc (fun e : Nat × (ℚ × StoredVector) => e.2.1) (fun e => e.1)) ∧
      c1s2.search simZero "users" [] 1 = .ok (((L.map Prod.snd).take 1).map toSearchResult) ∧
      (((L.map Prod.snd).take 1).map toSearchResult).length = min 1 (countVal c1s2 "users") :=
  search_ranking simZero c1s2 "users" [] 1 [toStored v1c, toStored v2c] (by decide) (by decide)

/-- Witness for C6: a never-created namespace yields the namespace-not-found error;
a created namespace yields `Ok`. -/
theorem search_missing_namespace_witness :
    ((run []).search simZero "missing" [] 5 =
      .error (.VectorStoreError ("Namespace not found: " ++ "missing"))) ∧
    (∃ r, (run opsA).search simZero "a" [] 5 = .ok r ∧
      (countVal (run opsA) "a" = 0 → r = [])) :=
  ⟨(search_missing_namespace simZero [] "missing" [] 5).1 (by decide),
   (search_missing_namespace simZero opsA "a" [] 5).2 (by decide)⟩

/-! ## Claim C10 -/

/-- C10: after any sequence of `store`, `store_batch`, `delete` and
`delete_namespace` operations, `list_namespaces()` returns exactly the namespaces
stored into and not subsequently namespace-deleted (`specNamespaces`, the
first-creation-order fold written from the claim's words), each appearing once;
membership coincides with the `created` predicate; a `delete` never removes a
namespace from the list nor changes namespace existence; and a created namespace
holding zero vectors searches to `Ok([])`, not an error. -/
theorem list_namespaces_characterisation (ops : List Op) :
    (run ops).list_namespaces = .ok (specNamespaces ops) ∧
    (specNamespaces ops).Nodup ∧
    (∀ ns, ns ∈ specNamespaces ops ↔ created ops ns = true) ∧
    (∀ ns id, (run (ops ++ [.delete ns id])).namespaces = (run ops).namespaces ∧
      ∀ ns2, created (ops ++ [.delete ns id]) ns2 = created ops ns2) ∧
    (∀ (sim : List ℚ → List ℚ → ℚ) (ns : String) (q : List ℚ) (k : Nat),
      created ops ns = true → countVal (run ops) ns = 0 →
      (run ops).search sim ns q k = .ok []) := by
  refine ⟨?_, ?_, ?_, ?_, ?_⟩
  · show Except.ok (run ops).namespaces = _
    rw [run_namespaces]
  · exact specNamespacesFrom_nodup ops [] List.nodup_nil
  · intro ns
    exact mem_specNamespacesFrom ns ops [] false (by simp)
  · intro ns id
    constructor
    · rw [run_append]
      rfl
    · intro ns2
      show createdFrom ns2 false (ops ++ [.delete ns id]) = createdFrom ns2 false ops
      unfold createdFrom
      rw [List.foldl_append]
      rfl
  · intro sim ns q k hcr hcount
    have hsome : (lookupNs (run ops).vectors ns).isSome := by
      rw [created_iff_lookup, hcr]
    obtain ⟨l, hl⟩ := Option.isSome_iff_exists.mp hsome
    cases l with
    | nil => exact search_of_lookup_empty sim _ ns q k hl
    | cons x xs =>
        exfalso
        simp [countVal, hl] at hcount

/-- Witness for C10 at `opsB` (store one vector into `b`, then delete it by id):
the namespace list is as specified and the emptied namespace searches to `Ok([])`. -/
theorem list_namespaces_characterisation_witness :
    (run opsB).list_namespaces = .ok (specNamespaces opsB) ∧
    (run opsB).search simZero "b" [] 3 = .ok [] :=
  ⟨(list_namespaces_characterisation opsB).1,
   (list_namespaces_characterisation opsB).2.2.2.2 simZero "b" [] 3 (by decide) (by decide)⟩

/-! ## Claims C7 and C8 : `chunk_text` -/

/-- Config `chunk_size = 10`, `overlap = 2` (a valid configuration). -/
def c7cfg : ChunkingConfig where
  chunk_size := 10
  overlap := 2
  include_field_names := true

/-- Twelve euro signs: 12 characters, 36 UTF-8 bytes — every byte offset that is
not a multiple of 3 falls inside a character. -/
def c7text : List Char := List.replicate 12 '€'

/-- C7: on multi-byte text, `chunk_text` panics: the candidate end `start +
chunk_size = 10` is treated as a byte offset by the slice `&text[start..actual_end]`
but byte 10 is not a character boundary of `"€"*12` (and `find_word_boundary`
scans *character* indices, so it cannot repair it).  The model returns the
`panicked` outcome — refuting the claim that chunking completes without failure
and never splits a multi-byte character. -/
theorem chunk_text_multibyte_panic : chunk_text c7cfg c7text 5 = .panicked := by decide

/-- Config `chunk_size = 10`, `overlap = 5` — valid (`0 < overlap < chunk_size`). -/
def c8cfg : ChunkingConfig where
  chunk_size := 10
  overlap := 5
  include_field_names := true

/-- The 22-character ASCII text `"a "` followed by twenty `'b'`s. -/
def c8text : List Char := 'a' :: ' ' :: List.replicate 20 'b'

theorem c8_loop_step (fuel k : Nat) (acc : List TextChunk) :
    chunkTextLoop c8cfg c8text (fuel + 1) 0 k acc =
      chunkTextLoop c8cfg c8text fuel 0 (k + 1) (acc ++ [⟨['a', ' '], 0, 2, k⟩]) := rfl

/-- C8: `chunk_text` does not terminate on `c8text` with the valid configuration
`chunk_size = 10 > overlap = 5 > 0`: from `start = 0` the boundary snap returns
`actual_end = 2` (just after the space at index 1), and
`start = actual_end.saturating_sub(overlap) = 0` again — the loop state recurs
forever.  The model returns `outOfFuel` for *every* fuel bound, i.e. the Rust
`while` loop never exits. -/
theorem chunk_text_nonterminating :
    ∀ fuel : Nat, chunk_text c8cfg c8text fuel = .outOfFuel := by
  have aux : ∀ (fuel k : Nat) (acc : List TextChunk),
      chunkTextLoop c8cfg c8text fuel 0 k acc = .outOfFuel := by
    intro fuel
    induction fuel with
    | zero => intro k acc; rfl
    | succ n ih =>
        intro k acc
        rw [c8_loop_step]
        exact ih (k + 1) (acc ++ [⟨['a', ' '], 0, 2, k⟩])
  intro fuel
  show chunkTextLoop c8cfg c8text fuel 0 0 [] = .outOfFuel
  exact aux fuel 0 []

/-! ## Claim C9 : configuration validation -/

/-- A chunking configuration with `overlap (7) ≥ chunk_size (5)`. -/
def c9cfg : ChunkingConfig where
  chunk_size := 5
  overlap := 7
  include_field_names := true

/-- C9 counterexample: with `overlap ≥ chunk_size`, `chunk_text` itself does not
fail with any configuration error — on a short text it happily returns one chunk. -/
theorem chunk_config_counterexample :
    c9cfg.chunk_size ≤ c9cfg.overlap ∧
    chunk_text c9cfg ['a', 'b'] 1 = .done [⟨['a', 'b'], 0, 2, 0⟩] := by decide

/-- C9 (amended): the `overlap ≥ chunk_size` rejection lives only in
`validate_config` (run at configuration-load time), which then fails with
`InvalidConfig "Overlap must be less than chunk size"`; `overlap = 0` — also
outside `0 < overlap < chunk_size` — is *accepted* by validation; and `chunk_text`
performs no validation at all: whatever the overlap, a text no longer than
`chunk_size` yields a single chunk. -/
theorem chunking_config_validation (cfg : ContragConfig) (t : List Char) (fuel : Nat)
    (hent : cfg.entities ≠ []) (hdim : cfg.embedder.dimensions ≠ 0) :
    (cfg.chunking.chunk_size ≠ 0 → cfg.chunking.chunk_size ≤ cfg.chunking.overlap →
      validate_config cfg = .error (.InvalidConfig "Overlap must be less than chunk size")) ∧
    (cfg.chunking.overlap = 0 → 0 < cfg.chunking.chunk_size →
      cfg.entities.find? (fun entity => entity.name.isEmpty || entity.canister_id.isEmpty)
        = none →
      validate_config cfg = .ok ()) ∧
    (byteLen t ≤ cfg.chunking.chunk_size →
      chunk_text cfg.chunking t fuel = .done [⟨t, 0, byteLen t, 0⟩]) := by
  have h1 : cfg.entities.isEmpty = false := by
    cases hcase : cfg.entities with
    | nil => exact absurd hcase hent
    | cons a l => rfl
  have h2 : (cfg.embedder.dimensions == 0) = false := by
    simp [hdim]
  refine ⟨?_, ?_, ?_⟩
  · intro hcs hle
    have h3 : (cfg.chunking.chunk_size == 0) = false := by
      simp [hcs]
    simp [validate_config, h1, h2, h3, hle]
  · intro hov hpos hfind
    have h3 : (cfg.chunking.chunk_size == 0) = false := by
      simp
      omega
    have h4 : ¬(cfg.chunking.chunk_size ≤ cfg.chunking.overlap) := by
      omega
    simp [validate_config, h1, h2, h3, h4, hfind]
  · intro hlen
    simp [chunk_text, hlen]

/-- A full concrete configuration whose chunking part has `overlap ≥ chunk_size`. -/
def c9conf : ContragConfig where
  entities := [⟨"User", "cid", "get_user", none, [], true⟩]
  embedder := ⟨"openai", "text-embedding-3-small", 8, none⟩
  chunking := c9cfg
  vector_store := ⟨"stable_memory", none, true⟩
  system_prompt := none

/-- Witness for C9's amended theorem at `c9conf`. -/
theorem chunking_config_validation_witness :
    validate_config c9conf = .error (.InvalidConfig "Overlap must be less than chunk size") ∧
    chunk_text c9conf.chunking ['a'] 3 = .done [⟨['a'], 0, byteLen ['a'], 0⟩] :=
  ⟨(chunking_config_validation c9conf ['a'] 3 (by decide) (by decide)).1
      (by decide) (by decide),
   (chunking_config_validation c9conf ['a'] 3 (by decide) (by decide)).2.2 (by decide)⟩

/-! ## Claims C4 and C5 : the embedding cache -/

theorem filterMap_hits_map_fst (g : String → Option (List ℚ)) :
    ∀ l : List (Nat × String),
      ((l.filterMap (fun p => (g p.2).map (fun e => (p.1, e)))).map Prod.fst) =
        ((l.filter (fun p => (g p.2).isSome)).map Prod.fst) := by
  intro l
  induction l with
  | nil => rfl
  | cons p l ih =>
      cases hcase : g p.2 with
      | none => simp [List.filterMap_cons, List.filter_cons, hcase, ih]
      | some e => simp [List.filterMap_cons, List.filter_cons, hcase, ih]

theorem cacheHits_map_fst (c : EmbeddingCache) (texts : List String) :
    (cacheHits c texts).map Prod.fst =
      ((texts.enum.filter (fun p => (c.get p.2).isSome)).map Prod.fst) :=
  filterMap_hits_map_fst (fun t => c.get t) texts.enum

theorem filter_enumFrom_map_snd {α : Type} (P : α → Bool) (l : List α) :
    ∀ n : Nat, (((List.enumFrom n l).filter (fun p => P p.2)).map Prod.snd) = l.filter P := by
  induction l with
  | nil => intro n; rfl
  | cons x xs ih =>
      intro n
      cases hcase : P x with
      | false => simp [List.enumFrom, List.filter_cons, hcase, ih]
      | true => simp [List.enumFrom, List.filter_cons, hcase, ih]

theorem missTexts_eq_filter_enum (c : EmbeddingCache) (texts : List String) :
    ((texts.enum.filter (fun p => (c.get p.2).isNone)).map Prod.snd) = missTexts c texts :=
  filter_enumFrom_map_snd (fun t => (c.get t).isNone) texts 0

theorem missIndices_length (c : EmbeddingCache) (texts : List String) :
    (missIndices c texts).length = (missTexts c texts).length := by
  rw [missIndices, ← missTexts_eq_filter_enum]
  simp

theorem combined_fst_perm (c : EmbeddingCache) (texts : List String) (es : List (List ℚ))
    (hlen : es.length = (missTexts c texts).length) :
    List.Perm ((cacheHits c texts ++ (missIndices c texts).zip es).map Prod.fst)
      (List.range texts.length) := by
  rw [List.map_append]
  have hzipfst : (((missIndices c texts).zip es).map Prod.fst) = missIndices c texts :=
    List.map_fst_zip _ _ (by rw [missIndices_length, hlen])
  rw [hzipfst, cacheHits_map_fst]
  have hneg : (fun p : Nat × String => (c.get p.2).isNone) =
      (fun p : Nat × String => !((c.get p.2).isSome)) := by
    funext p
    cases c.get p.2 <;> rfl
  have hmi : missIndices c texts =
      ((texts.enum.filter (fun p => !((c.get p.2).isSome))).map Prod.fst) := by
    rw [missIndices, hneg]
  rw [hmi, ← List.map_append]
  have hfp := (List.filter_append_perm
    (fun p : Nat × String => (c.get p.2).isSome) texts.enum).map Prod.fst
  exact hfp.trans (by rw [List.enum_map_fst])

theorem get?_map_eq {α β : Type} (f : α → β) (l : List α) (n : Nat) :
    (l.map f).get? n = (l.get? n).map f := by
  induction l generalizing n with
  | nil => cases n <;> rfl
  | cons x xs ih =>
      cases n with
      | zero => rfl
      | succ n => exact ih n

theorem leIdx_total (a b : Nat × List ℚ) : leIdx a b = true ∨ leIdx b a = true := by
  rcases Nat.le_total a.1 b.1 with h | h
  · exact Or.inl (by simpa [leIdx] using h)
  · exact Or.inr (by simpa [leIdx] using h)

theorem leIdx_trans (a b c : Nat × List ℚ) (h1 : leIdx a b = true) (h2 : leIdx b c = true) :
    leIdx a c = true := by
  simp only [leIdx, decide_eq_true_eq] at h1 h2 ⊢
  exact le_trans h1 h2

/-- Core fact behind the reassembly step of `embed_with_cache`: stable-sorting a
`(position, value)` list whose positions are a permutation of `0..n` by ascending
position yields a list whose value at index `i` is the value paired with `i`. -/
theorem sorted_assemble (combined : List (Nat × List ℚ)) (n : Nat)
    (hperm : List.Perm (combined.map Prod.fst) (List.range n)) :
    ((isortBy leIdx combined).map Prod.snd).length = n ∧
    (∀ i v, (i, v) ∈ combined →
      ((isortBy leIdx combined).map Prod.snd).get? i = some v) := by
  have hS : List.Perm (isortBy leIdx combined) combined := isortBy_perm _ _
  have hpw : (isortBy leIdx combined).Pairwise (fun a b => leIdx a b = true) :=
    pairwise_isortBy leIdx leIdx_total leIdx_trans combined
  have hfstperm : List.Perm ((isortBy leIdx combined).map Prod.fst) (List.range n) :=
    (hS.map Prod.fst).trans hperm
  have hnd : ((isortBy leIdx combined).map Prod.fst).Nodup :=
    hfstperm.nodup_iff.mpr (List.nodup_range n)
  have hple : ((isortBy leIdx combined).map Prod.fst).Pairwise (· ≤ ·) := by
    rw [List.pairwise_map]
    refine hpw.imp ?_
    intro a b h
    simpa [leIdx] using h
  have hplt : ((isortBy leIdx combined).map Prod.fst).Pairwise (· < ·) :=
    (hple.and hnd).imp (fun h => lt_of_le_of_ne h.1 h.2)
  have hfst : (isortBy leIdx combined).map Prod.fst = List.range n :=
    List.eq_of_perm_of_sorted hfstperm hplt (List.pairwise_lt_range n)
  have hlenS : (isortBy leIdx combined).length = n := by
    have := congrArg List.length hfst
    simpa using this
  constructor
  · simpa using hlenS
  · intro i v hmem
    have hmemS : (i, v) ∈ isortBy leIdx combined := hS.mem_iff.mpr hmem
    obtain ⟨j, hj⟩ := List.get?_of_mem hmemS
    have hfj : ((isortBy leIdx combined).map Prod.fst).get? j = some i := by
      rw [get?_map_eq, hj]
      rfl
    rw [hfst] at hfj
    have hji : j = i := by
      by_cases hjn : j < n
      · have := List.get?_range hjn
        rw [this] at hfj
        exact (Option.some_inj.mp hfj)
      · have hnone : (List.range n).get? j = none := by
          rw [List.get?_eq_none]
          simpa using Nat.le_of_not_lt hjn
        rw [hnone] at hfj
        cases hfj
    rw [get?_map_eq, ← hji, hj]
    rfl

/-- C4 (amended): `embed_with_cache` invokes the embedder at most once, passing the
in-order list of cache-miss texts — duplicates included, all present cache hits
excluded (the source performs no deduplication) — and, provided the embedder
returns one embedding per requested text, returns exactly one embedding per input
text in the original input order: position `i` receives the cached value when
`texts[i]` was a hit, and the embedder's `j`-th output when `texts[i]` was the
`j`-th miss. -/
theorem embed_with_cache_spec (c : EmbeddingCache)
    (embedFn : List String → Except ContragError (List (List ℚ))) (texts : List String)
    (es : List (List ℚ))
    (hcall : embedFn (missTexts c texts) = .ok es)
    (hlen : es.length = (missTexts c texts).length) :
    ∃ res c2,
      embedWithCache c embedFn texts =
        .ok (res, c2, if (missTexts c texts).isEmpty then [] else [missTexts c texts]) ∧
      res.length = texts.length ∧
      (∀ i t e, texts.get? i = some t → c.get t = some e → res.get? i = some e) ∧
      (∀ j i, (missIndices c texts).get? j = some i → res.get? i = es.get? j) := by
  have hperm := combined_fst_perm c texts es hlen
  have hasm := sorted_assemble (cacheHits c texts ++ (missIndices c texts).zip es)
    texts.length hperm
  have hhit : ∀ i t e, texts.get? i = some t → c.get t = some e →
      (i, e) ∈ cacheHits c texts := by
    intro i t e hti hce
    have henum : texts.enum.get? i = some (i, t) := by
      rw [List.get?_enum, hti]
      rfl
    have hmem : (i, t) ∈ texts.enum := List.get?_mem henum
    exact List.mem_filterMap.mpr ⟨(i, t), hmem, by simp [hce]⟩
  have hmiss : ∀ j i, (missIndices c texts).get? j = some i →
      ∃ ej, es.get? j = some ej ∧ (i, ej) ∈ (missIndices c texts).zip es := by
    intro j i hj
    have hjlt : j < (missIndices c texts).length := by
      by_contra hnot
      rw [List.get?_eq_none.mpr (Nat.le_of_not_lt hnot)] at hj
      cases hj
    have hjes : j < es.length := by
      rw [hlen, ← missIndices_length]
      exact hjlt
    obtain ⟨ej, hej⟩ : ∃ ej, es.get? j = some ej := by
      cases hcase : es.get? j with
      | none =>
          rw [List.get?_eq_none] at hcase
          omega
      | some x => exact ⟨x, rfl⟩
    exact ⟨ej, hej, List.get?_mem (get?_zip_eq _ _ j i ej hj hej)⟩
  by_cases hmt : (missTexts c texts).isEmpty
  · have hmtnil : missTexts c texts = [] := List.isEmpty_iff.mp hmt
    have hesnil : es = [] := by
      rw [hmtnil] at hlen
      exact List.length_eq_zero.mp (by simpa using hlen)
    have hminil : missIndices c texts = [] := by
      have hml := missIndices_length c texts
      rw [hmtnil] at hml
      exact List.length_eq_zero.mp (by simpa using hml)
    have hcomb : cacheHits c texts ++ (missIndices c texts).zip es = cacheHits c texts := by
      rw [hminil]
      simp
    rw [hcomb] at hasm
    refine ⟨(isortBy leIdx (cacheHits c texts)).map Prod.snd, c, ?_, ?_, ?_, ?_⟩
    · simp only [embedWithCache]
      rw [if_pos hmt, if_pos hmt]
    · exact hasm.1
    · intro i t e h1 h2
      exact hasm.2 i e (hhit i t e h1 h2)
    · intro j i hj
      rw [hminil] at hj
      cases hj
  · refine ⟨(isortBy leIdx (cacheHits c texts ++ (missIndices c texts).zip es)).map Prod.snd,
      ((missTexts c texts).zip es).foldl (fun cc p => cc.insert p.1 p.2) c, ?_, ?_, ?_, ?_⟩
    · simp only [embedWithCache]
      rw [if_neg hmt, if_neg hmt, hcall]
    · exact hasm.1
    · intro i t e h1 h2
      exact hasm.2 i e (List.mem_append.mpr (Or.inl (hhit i t e h1 h2)))
    · intro j i hj
      obtain ⟨ej, hej, hmem⟩ := hmiss j i hj
      rw [hej]
      exact hasm.2 i ej (List.mem_append.mpr (Or.inr hmem))

/-- A concrete embedder returning a distinct embedding for each *position* of its
input batch (so duplicate texts in one batch get different embeddings). -/
def embedSeq : List String → Except ContragError (List (List ℚ)) :=
  fun l => .ok (l.enum.map (fun p => [(p.1 : ℚ)]))

/-- C4 counterexample: with `["a", "a"]` and an empty cache, the single embedder
call receives `["a", "a"]` — *not* the deduplicated `["a"]` — and the two equal
input texts receive *different* embeddings (`[0]` and `[1]`). -/
theorem embed_with_cache_counterexample :
    embedWithCache (EmbeddingCache.new 10) embedSeq ["a", "a"] =
      .ok ([[0], [1]], ⟨[("a", [1])], 10⟩, [["a", "a"]]) ∧
    missTexts (EmbeddingCache.new 10) ["a", "a"] = ["a", "a"] ∧
    (["a", "a"] : List String) ≠ ["a"] ∧ [(0 : ℚ)] ≠ [(1 : ℚ)] := by
  refine ⟨by decide, by decide, by decide, by decide⟩

/-- Witness for C4's amended theorem at a concrete uncached two-text batch. -/
theorem embed_with_cache_spec_witness :
    ∃ res c2,
      embedWithCache (EmbeddingCache.new 4) embedSeq ["x", "y"] =
        .ok (res, c2,
          if (missTexts (EmbeddingCache.new 4) ["x", "y"]).isEmpty then []
          else [missTexts (EmbeddingCache.new 4) ["x", "y"]]) ∧
      res.length = (["x", "y"] : List String).length ∧
      (∀ i t e, (["x", "y"] : List String).get? i = some t →
        (EmbeddingCache.new 4).get t = some e → res.get? i = some e) ∧
      (∀ j i, (missIndices (EmbeddingCache.new 4) ["x", "y"]).get? j = some i →
        res.get? i = ([[0], [1]] : List (List ℚ)).get? j) :=
  embed_with_cache_spec (EmbeddingCache.new 4) embedSeq ["x", "y"] [[0], [1]]
    (by decide) (by decide)

/-- Cache of capacity 2 holding `a` then `b` (in insertion order). -/
def c5cache2 : EmbeddingCache := ((EmbeddingCache.new 2).insert "a" [1]).insert "b" [2]

/-- C5: the eviction is not least-recently-used.  `get` takes `&self` and so
cannot refresh any recency data (the cache stores none); after `insert a, insert b,
get a`, inserting `c` into the full cache evicts the map's *first* key `a` — the
most recently used entry — while a true LRU (with `get` refreshing recency) would
evict `b`.  The capacity bound itself holds here (2 entries remain). -/
theorem cache_eviction_not_lru :
    c5cache2.get "a" = some [1] ∧
    (c5cache2.insert "c" [3]).cache.map Prod.fst = ["b", "c"] ∧
    (c5cache2.insert "c" [3]).cache.length = 2 := by
  refine ⟨by decide, by decide, by decide⟩

end Contrag
